import Mathlib

/-!
Verification of the crossword CSP engine (`generate.py`, class `CrosswordCreator`).

Shallow embedding conventions:
* slots (`Variable` objects) are identified by `Nat` ids;
* words are `List Char`;
* the domain store (`self.domains`, a dict from slot to word set) is a total
  function `Nat → List Word`; Python set iteration order is determinized as
  list order;
* a partial assignment (a Python dict from slot to word) is an association
  list in insertion order, updated in place like a dict;
* the recursion of `backtrack` is given explicit fuel (one unit per recursive
  call); `|variables| + 1` bounds the call depth because every recursive call
  starts from an assignment with strictly more bound slots;
* since `backtrack` mutates its `assignment` argument in place in Python, the
  embedding returns a pair: the return value and the final state of the
  mutated assignment.
-/

abbrev Word := List Char

abbrev Assignment := List (Nat × Word)

abbrev Domains := Nat → List Word

/-- Character of a word at an index (words in play are long enough). -/
def charAt (w : Word) (n : Nat) : Char := w.getD n ' '

/-- The immutable puzzle graph consumed by the engine: slot ids, each slot's
required length, the overlap record for each ordered pair of slots, and the
initial vocabulary (`crossword.variables`, `var.length`,
`crossword.overlaps`, `crossword.words`). -/
structure Crossword where
  vars : List Nat
  length : Nat → Nat
  overlaps : Nat → Nat → Option (Nat × Nat)
  words : List Word

/-- Modelled from the spec: `crossword.neighbors` lives in `crossword.py`,
which is outside the engine source; per the spec it is "a neighbor query
returning, for a given slot, the set of all other slots it overlaps with". -/
def neighbors (cw : Crossword) (v : Nat) : List Nat :=
  cw.vars.filter (fun w => !(w == v) && (cw.overlaps v w).isSome)

/-- Pointwise update of the domain store (`self.domains[x] = ...`). -/
def updateD (doms : Domains) (x : Nat) (ws : List Word) : Domains :=
  fun v => if v = x then ws else doms v

/-- `CrosswordCreator.__init__`: every slot's domain starts as a copy of the
whole vocabulary. -/
def initial_domains (cw : Crossword) : Domains := fun _ => cw.words

/-- `CrosswordCreator.enforce_node_consistency`: for each variable, discard
from its domain every word whose length differs from the variable's length. -/
def enforce_node_consistency (cw : Crossword) (doms : Domains) : Domains :=
  cw.vars.foldl
    (fun d var => updateD d var ((d var).filter (fun w => w.length == cw.length var)))
    doms

/-- The inner loop of `revise`: word `i` has a support `j` in `domain(y)`
with `i ≠ j` and `i[a] == j[b]`. -/
def hasSupport (doms : Domains) (y a b : Nat) (i : Word) : Bool :=
  (doms y).any (fun j => !(i == j) && (charAt i a == charAt j b))

/-- `CrosswordCreator.revise x y`: if `x` and `y` overlap at offsets
`(a, b)`, mark every word `i` of `domain(x)` with no support
`j ∈ domain(y)` (`i ≠ j` and `i[a] == j[b]`) and remove the marked words;
return whether anything was removed, together with the updated store. -/
def revise (cw : Crossword) (doms : Domains) (x y : Nat) : Bool × Domains :=
  match cw.overlaps x y with
  | none => (false, doms)
  | some (a, b) =>
    let remove := (doms x).filter (fun i => !(hasSupport doms y a b i))
    if remove.isEmpty then (false, doms)
    else (true, updateD doms x ((doms x).filter (fun i => hasSupport doms y a b i)))

/-- The initial worklist of `ac3` when called with `arcs = None`: every
ordered pair `(v1, v2)` with `v2` a neighbor of `v1`.  The deque is
represented with its pop end at the head (`appendleft` appends at the
tail), so the list below is in pop (FIFO) order. -/
def initArcs (cw : Crossword) : List (Nat × Nat) :=
  cw.vars.foldr
    (fun v1 acc => (neighbors cw v1).map (fun v2 => (v1, v2)) ++ acc) []

/-- The worklist loop of `CrosswordCreator.ac3`, with explicit fuel.
Pops an arc `(x, y)`, revises, fails immediately if `domain(x)` became
empty, and re-enqueues `(z, x)` for every neighbor `z` of `x` except `y`
after a revision. -/
def acLoop (cw : Crossword) : Nat → Domains → List (Nat × Nat) → Option (Bool × Domains)
  | 0, _, _ => none
  | _ + 1, doms, [] => some (true, doms)
  | fuel + 1, doms, (x, y) :: rest =>
    match revise cw doms x y with
    | (true, d1) =>
      if (d1 x).isEmpty then some (false, d1)
      else
        acLoop cw fuel d1
          (rest ++ ((neighbors cw x).filter (fun z => !(z == y))).map (fun z => (z, x)))
    | (false, d1) => acLoop cw fuel d1 rest

/-- Total size of the domain store over the puzzle's variables. -/
def domSize (cw : Crossword) (doms : Domains) : Nat :=
  (cw.vars.map (fun v => (doms v).length)).sum

/-- Fuel bound for the AC-3 worklist loop: each iteration either strictly
shrinks some domain (adding at most `|variables|` arcs) or shortens the
worklist. -/
def acMeasure (cw : Crossword) (doms : Domains) (arcs : List (Nat × Nat)) : Nat :=
  domSize cw doms * (cw.vars.length + 1) + arcs.length

/-- `CrosswordCreator.ac3`: run the worklist loop on the supplied arcs, or on
all arcs of the problem when none are supplied.  A supplied list is reversed
because `deque(arcs).pop()` takes the last element of the list first, while
the loop's representation pops at the head.  The fuel `acMeasure + 1` is
proved sufficient below (`acLoop_isSome`), so the default of `getD` is never
taken on the arc lists the program uses. -/
def ac3 (cw : Crossword) (doms : Domains) (arcsOpt : Option (List (Nat × Nat))) :
    Bool × Domains :=
  let arcs := match arcsOpt with
    | none => initArcs cw
    | some l => l.reverse
  (acLoop cw (acMeasure cw doms arcs + 1) doms arcs).getD (false, doms)

/-- `variable in assignment`: key membership in the dict. -/
def assignedB (a : Assignment) (x : Nat) : Bool := a.any (fun p => p.1 == x)

/-- `assignment[x] = w`: dict update, keeping insertion order for an existing
key and appending a new key. -/
def setA (a : Assignment) (x : Nat) (w : Word) : Assignment :=
  if assignedB a x then a.map (fun p => if p.1 == x then (x, w) else p)
  else a ++ [(x, w)]

/-- `assignment.pop(x)`: remove a key from the dict. -/
def popA (a : Assignment) (x : Nat) : Assignment :=
  a.filter (fun p => !(p.1 == x))

/-- `CrosswordCreator.assignment_complete`: every crossword variable has an
entry in the assignment. -/
def assignment_complete (cw : Crossword) (a : Assignment) : Bool :=
  cw.vars.all (fun v => assignedB a v)

/-- `CrosswordCreator.consistent`: every assigned word has the slot's length,
no two distinct slots hold equal words, and overlapping assigned slots agree
at the shared cell. -/
def consistent (cw : Crossword) (a : Assignment) : Bool :=
  a.all fun p =>
    (cw.length p.1 == p.2.length) &&
    (a.all fun q =>
      if p.1 == q.1 then true
      else
        !(p.2 == q.2) &&
        (match cw.overlaps p.1 q.1 with
         | some (o1, o2) => charAt p.2 o1 == charAt q.2 o2
         | none => true))

/-- Stable insertion into a sorted list: the new element goes before the
first element it compares `le` to, as Python's stable sort would keep it. -/
def insertLe {α : Type} (le : α → α → Bool) (a : α) : List α → List α
  | [] => [a]
  | b :: l => if le a b then a :: b :: l else b :: insertLe le a l

/-- Stable insertion sort, determinizing Python's stable `list.sort`. -/
def sortLe {α : Type} (le : α → α → Bool) : List α → List α
  | [] => []
  | a :: l => insertLe le a (sortLe le l)

/-- `word2` choices of unassigned neighbors that choosing `w` for `var`
would rule out (`ruled_out` counter of `order_domain_values`). -/
def ruled_out (cw : Crossword) (doms : Domains) (var : Nat) (ns : List Nat)
    (w : Word) : Nat :=
  ns.foldl
    (fun acc n =>
      (doms n).foldl
        (fun acc2 w2 =>
          match cw.overlaps var n with
          | some (a, b) => if charAt w a == charAt w2 b then acc2 else acc2 + 1
          | none => acc2)
        acc)
    0

/-- `CrosswordCreator.order_domain_values`: the candidate words of `var`,
sorted ascending by how many options they rule out for unassigned
neighbors. -/
def order_domain_values (cw : Crossword) (doms : Domains) (var : Nat)
    (a : Assignment) : List Word :=
  let ns := (neighbors cw var).filter (fun v => !(assignedB a v))
  let result := (doms var).map (fun w => (w, ruled_out cw doms var ns w))
  (sortLe (fun p q => decide (p.2 ≤ q.2)) result).map (fun p => p.1)

/-- Sort key comparison of `select_unassigned_variable`: ascending domain
size, then descending neighbor count (`key=lambda x: (x[1], -x[2])`). -/
def selLe (p q : Nat × Nat × Nat) : Bool :=
  decide (p.2.1 < q.2.1) || ((p.2.1 == q.2.1) && decide (q.2.2 ≤ p.2.2))

/-- The `potential_variables` list of `select_unassigned_variable`: each
unassigned variable paired with its domain size and its degree. -/
def selPool (cw : Crossword) (doms : Domains) (a : Assignment) :
    List (Nat × Nat × Nat) :=
  (cw.vars.filter (fun v => !(assignedB a v))).map
    (fun v => (v, (doms v).length, (neighbors cw v).length))

/-- `CrosswordCreator.select_unassigned_variable`: among unassigned
variables, pick the first after the stable sort by (domain size, -degree);
`None` when everything is assigned. -/
def select_unassigned_variable (cw : Crossword) (doms : Domains)
    (a : Assignment) : Option Nat :=
  match sortLe selLe (selPool cw doms a) with
  | [] => none
  | p :: _ => some p.1

/-- Python truthiness of `backtrack`'s result (`if result:`): `None` and the
empty dict are falsy. -/
def truthy : Option Assignment → Bool
  | none => false
  | some a => !a.isEmpty

/-- The `for value in self.order_domain_values(...)` loop of `backtrack`:
bind, check consistency, recurse on success, pop only on the inconsistent
branch (the binding is NOT removed when the recursive call fails), and fall
off the loop returning `None`.  `bt` is the recursive call at the smaller
fuel. -/
def backtrackGo (cw : Crossword) (var : Nat)
    (bt : Assignment → Option Assignment × Assignment) :
    List Word → Assignment → Option Assignment × Assignment
  | [], a => (none, a)
  | w :: rest, a =>
    let a1 := setA a var w
    if consistent cw a1 then
      let r := bt a1
      if truthy r.1 then r else backtrackGo cw var bt rest r.2
    else
      backtrackGo cw var bt rest (popA a1 var)

/-- `CrosswordCreator.backtrack` with explicit recursion fuel.  Returns the
Python return value together with the final state of the in-place mutated
assignment dict. -/
def backtrack (cw : Crossword) (doms : Domains) :
    Nat → Assignment → Option Assignment × Assignment
  | 0, a => (none, a)
  | fuel + 1, a =>
    if assignment_complete cw a then (some a, a)
    else
      match select_unassigned_variable cw doms a with
      | none => (none, a)
      | some var =>
        backtrackGo cw var (backtrack cw doms fuel)
          (order_domain_values cw doms var a) a

/-- `CrosswordCreator.solve`: node consistency, then `ac3()` (its Boolean
result is discarded, as in the source), then `backtrack(dict())`. -/
def solve (cw : Crossword) : Option Assignment :=
  let d1 := enforce_node_consistency cw (initial_domains cw)
  let d2 := (ac3 cw d1 none).2
  (backtrack cw d2 (cw.vars.length + 1) []).1

/-! Concrete puzzle instances used to instantiate the theorems below. -/

/-- Two crossing slots of length 2 sharing their first cell, with a
vocabulary rich enough that AC-3 removes nothing. -/
def exPair : Crossword where
  vars := [0, 1]
  length := fun _ => 2
  overlaps := fun x y =>
    match x, y with
    | 0, 1 => some (0, 0)
    | 1, 0 => some (0, 0)
    | _, _ => none
  words := [['a', 'b'], ['a', 'c']]

/-- Domain store of `exPair` after node consistency. -/
def exPairDoms : Domains := enforce_node_consistency exPair (initial_domains exPair)

/-- Two crossing slots with a single shared word: `revise` empties a domain
(the lone word has no distinct support), so AC-3 fails. -/
def exClash : Crossword where
  vars := [0, 1]
  length := fun _ => 2
  overlaps := fun x y =>
    match x, y with
    | 0, 1 => some (0, 0)
    | 1, 0 => some (0, 0)
    | _, _ => none
  words := [['a', 'b']]

/-- Domain store of `exClash` after node consistency. -/
def exClashDoms : Domains := enforce_node_consistency exClash (initial_domains exClash)

/-- Three slots of length 1 with no overlaps and only two words: an
unsatisfiable instance on which the search exhausts every branch. -/
def exTriple : Crossword where
  vars := [0, 1, 2]
  length := fun _ => 1
  overlaps := fun _ _ => none
  words := [['a'], ['b']]

/-- Domain store of `exTriple` after node consistency. -/
def exTripleDoms : Domains := enforce_node_consistency exTriple (initial_domains exTriple)

/-- A 2x2 grid: slots 0 and 1 are the rows, slots 2 and 3 the columns, each
of length 2, with the four crossing cells recorded symmetrically.  With the
vocabulary {aa, ac, bc, ca, cb} this puzzle is satisfiable. -/
def exGrid : Crossword where
  vars := [0, 1, 2, 3]
  length := fun _ => 2
  overlaps := fun x y =>
    match x, y with
    | 0, 2 => some (0, 0)
    | 2, 0 => some (0, 0)
    | 0, 3 => some (1, 0)
    | 3, 0 => some (0, 1)
    | 1, 2 => some (0, 1)
    | 2, 1 => some (1, 0)
    | 1, 3 => some (1, 1)
    | 3, 1 => some (1, 1)
    | _, _ => none
  words := [['a', 'a'], ['a', 'c'], ['b', 'c'], ['c', 'a'], ['c', 'b']]

/-- A complete assignment solving `exGrid`: rows "ca", "bc"; columns "cb",
"ac". -/
def exGridSol : Assignment :=
  [(0, ['c', 'a']), (1, ['b', 'c']), (2, ['c', 'b']), (3, ['a', 'c'])]

/-- A puzzle with no slots at all. -/
def exNoSlots : Crossword where
  vars := []
  length := fun _ => 0
  overlaps := fun _ _ => none
  words := []

/-- Arc-consistency of slot `x` with respect to slot `y` in a domain store:
whenever they overlap at `(a, b)`, every word of `domain(x)` has a distinct
support in `domain(y)` matching at the shared cell. -/
def SuppProp (cw : Crossword) (doms : Domains) (x y : Nat) : Prop :=
  ∀ a b, cw.overlaps x y = some (a, b) →
    ∀ w ∈ doms x, ∃ j, j ∈ doms y ∧ w ≠ j ∧ charAt w a = charAt j b

/-! Helper lemmas about the domain store and `revise`. -/

lemma updateD_self (doms : Domains) (x : Nat) (ws : List Word) :
    updateD doms x ws x = ws := by
  simp [updateD]

lemma updateD_ne (doms : Domains) (x : Nat) (ws : List Word) {v : Nat} (h : v ≠ x) :
    updateD doms x ws v = doms v := by
  simp [updateD, h]

lemma hasSupport_iff (doms : Domains) (y a b : Nat) (i : Word) :
    hasSupport doms y a b i = true ↔
      ∃ j, j ∈ doms y ∧ i ≠ j ∧ charAt i a = charAt j b := by
  simp [hasSupport, List.any_eq_true, Bool.and_eq_true, Bool.not_eq_true',
    beq_eq_false_iff_ne, beq_iff_eq]

lemma enforce_foldl_apply (cw : Crossword) :
    ∀ (vs : List Nat) (doms : Domains) (v : Nat),
      vs.foldl (fun d var => updateD d var ((d var).filter (fun w => w.length == cw.length var))) doms v
        = if v ∈ vs then (doms v).filter (fun w => w.length == cw.length v) else doms v := by
  intro vs
  induction vs with
  | nil => intro doms v; simp
  | cons u rest ih =>
    intro doms v
    rw [List.foldl_cons, ih]
    by_cases hv : v = u
    · subst hv
      by_cases hm : v ∈ rest
      · simp only [hm, if_true, List.mem_cons, true_or, updateD_self, List.filter_filter]
        apply List.filter_congr
        intro w _
        exact Bool.and_self _
      · simp [hm, updateD_self]
    · by_cases hm : v ∈ rest
      · have hne := updateD_ne doms u ((doms u).filter (fun w => w.length == cw.length u)) hv
        simp [hm, hv, hne]
      · have hne := updateD_ne doms u ((doms u).filter (fun w => w.length == cw.length u)) hv
        simp [hm, hv, hne]

lemma enforce_apply (cw : Crossword) (doms : Domains) (v : Nat) :
    enforce_node_consistency cw doms v
      = if v ∈ cw.vars then (doms v).filter (fun w => w.length == cw.length v) else doms v :=
  enforce_foldl_apply cw cw.vars doms v

lemma revise_of_overlap_none (cw : Crossword) (doms : Domains) {x y : Nat}
    (h : cw.overlaps x y = none) : revise cw doms x y = (false, doms) := by
  simp [revise, h]

lemma revise_of_overlap_some (cw : Crossword) (doms : Domains) {x y a b : Nat}
    (h : cw.overlaps x y = some (a, b)) :
    revise cw doms x y =
      if ((doms x).filter (fun i => !(hasSupport doms y a b i))).isEmpty
      then (false, doms)
      else (true, updateD doms x ((doms x).filter (fun i => hasSupport doms y a b i))) := by
  simp [revise, h]

lemma revise_snd_ne (cw : Crossword) (doms : Domains) (x y : Nat) {z : Nat} (hz : z ≠ x) :
    (revise cw doms x y).2 z = doms z := by
  rcases hov : cw.overlaps x y with _ | ⟨a, b⟩
  · rw [revise_of_overlap_none cw doms hov]
  · rw [revise_of_overlap_some cw doms hov]
    split <;> simp [updateD, hz]

lemma revise_mem_snd (cw : Crossword) (doms : Domains) {x y a b : Nat}
    (h : cw.overlaps x y = some (a, b)) (w : Word) :
    w ∈ (revise cw doms x y).2 x ↔ w ∈ doms x ∧ hasSupport doms y a b w = true := by
  rw [revise_of_overlap_some cw doms h]
  split
  · rename_i he
    rw [List.isEmpty_iff, List.filter_eq_nil_iff] at he
    constructor
    · intro hw
      refine ⟨hw, ?_⟩
      have := he w hw
      simpa using this
    · exact fun hh => hh.1
  · simp [updateD_self, List.mem_filter]

lemma revise_fst_true_iff (cw : Crossword) (doms : Domains) {x y a b : Nat}
    (h : cw.overlaps x y = some (a, b)) :
    (revise cw doms x y).1 = true ↔ ∃ w ∈ doms x, hasSupport doms y a b w = false := by
  rw [revise_of_overlap_some cw doms h]
  split
  · rename_i he
    rw [List.isEmpty_iff, List.filter_eq_nil_iff] at he
    apply iff_of_false
    · simp
    · rintro ⟨w, hw, hf⟩
      have := he w hw
      simp [hf] at this
  · rename_i he
    apply iff_of_true rfl
    have hne : (doms x).filter (fun i => !(hasSupport doms y a b i)) ≠ [] := by
      simpa [List.isEmpty_iff] using he
    obtain ⟨w, hw⟩ := List.exists_mem_of_ne_nil _ hne
    rw [List.mem_filter] at hw
    exact ⟨w, hw.1, by simpa using hw.2⟩

lemma revise_fst_false_eq (cw : Crossword) (doms : Domains) {x y : Nat}
    (h : (revise cw doms x y).1 = false) : (revise cw doms x y).2 = doms := by
  rcases hov : cw.overlaps x y with _ | ⟨a, b⟩
  · rw [revise_of_overlap_none cw doms hov]
  · rw [revise_of_overlap_some cw doms hov] at h ⊢
    split at h
    · split
      · rfl
      · simp_all
    · simp at h

lemma revise_true_overlap (cw : Crossword) (doms : Domains) {x y : Nat}
    (h : (revise cw doms x y).1 = true) : ∃ a b, cw.overlaps x y = some (a, b) := by
  rcases hov : cw.overlaps x y with _ | ⟨a, b⟩
  · rw [revise_of_overlap_none cw doms hov] at h
    cases h
  · exact ⟨a, b, rfl⟩

lemma revise_snd_subset (cw : Crossword) (doms : Domains) (x y z : Nat) (w : Word)
    (hw : w ∈ (revise cw doms x y).2 z) : w ∈ doms z := by
  by_cases hz : z = x
  · rw [hz] at hw ⊢
    rcases hov : cw.overlaps x y with _ | ⟨a, b⟩
    · rwa [revise_of_overlap_none cw doms hov] at hw
    · exact ((revise_mem_snd cw doms hov w).mp hw).1
  · rwa [revise_snd_ne cw doms x y hz] at hw

lemma revise_true_length_lt (cw : Crossword) (doms : Domains) {x y : Nat}
    (h : (revise cw doms x y).1 = true) :
    ((revise cw doms x y).2 x).length < (doms x).length := by
  obtain ⟨a, b, hov⟩ := revise_true_overlap cw doms h
  rw [revise_of_overlap_some cw doms hov] at h ⊢
  by_cases hc : ((doms x).filter (fun i => !(hasSupport doms y a b i))).isEmpty = true
  · rw [if_pos hc] at h
    simp at h
  · rw [if_neg hc] at h ⊢
    have hne : (doms x).filter (fun i => !(hasSupport doms y a b i)) ≠ [] := by
      simpa [List.isEmpty_iff] using hc
    obtain ⟨w, hw⟩ := List.exists_mem_of_ne_nil _ hne
    rw [List.mem_filter] at hw
    show ((updateD doms x ((doms x).filter fun i => hasSupport doms y a b i)) x).length
      < (doms x).length
    rw [updateD_self, List.length_filter_lt_length_iff_exists]
    exact ⟨w, hw.1, by simpa using hw.2⟩

/-! Claim theorems: node consistency, revise, consistency check. -/

/-- C7: after `enforce_node_consistency`, a word is in a slot's domain iff
it was there before and its length equals the slot's length; domains of
anything outside the variable set are untouched. -/
theorem enforce_node_consistency_post (cw : Crossword) (doms : Domains) :
    (∀ v ∈ cw.vars, ∀ w : Word,
        w ∈ enforce_node_consistency cw doms v ↔ w ∈ doms v ∧ w.length = cw.length v)
    ∧ (∀ v, v ∉ cw.vars → enforce_node_consistency cw doms v = doms v) := by
  constructor
  · intro v hv w
    rw [enforce_apply, if_pos hv, List.mem_filter, beq_iff_eq]
  · intro v hv
    rw [enforce_apply, if_neg hv]

theorem enforce_node_consistency_post_witness :
    (0 ∈ exPair.vars)
    ∧ (['a', 'b'] ∈ enforce_node_consistency exPair (initial_domains exPair) 0 ↔
        ['a', 'b'] ∈ initial_domains exPair 0 ∧ (['a', 'b'] : Word).length = exPair.length 0) :=
  ⟨by decide,
    (enforce_node_consistency_post exPair (initial_domains exPair)).1 0 (by decide) ['a', 'b']⟩

/-- C3: full postcondition of `revise x y`: without an overlap it reports
no revision and changes nothing; with overlap offsets `(a, b)` the new
domain of `x` consists of exactly the previously-supported words, every
other domain is unchanged, and the Boolean is true iff some word was
removed from `domain(x)`. -/
theorem revise_postcondition (cw : Crossword) (doms : Domains) (x y : Nat) :
    (cw.overlaps x y = none → revise cw doms x y = (false, doms))
    ∧ (∀ a b, cw.overlaps x y = some (a, b) →
        (∀ w : Word, w ∈ (revise cw doms x y).2 x ↔
            w ∈ doms x ∧ ∃ j, j ∈ doms y ∧ w ≠ j ∧ charAt w a = charAt j b)
        ∧ (∀ z, z ≠ x → (revise cw doms x y).2 z = doms z)
        ∧ ((revise cw doms x y).1 = true ↔
            ∃ w, w ∈ doms x ∧ w ∉ (revise cw doms x y).2 x)) := by
  refine ⟨fun h => revise_of_overlap_none cw doms h, fun a b h => ⟨?_, ?_, ?_⟩⟩
  · intro w
    rw [revise_mem_snd cw doms h w, hasSupport_iff]
  · intro z hz
    exact revise_snd_ne cw doms x y hz
  · rw [revise_fst_true_iff cw doms h]
    constructor
    · rintro ⟨w, hw, hf⟩
      refine ⟨w, hw, fun hmem => ?_⟩
      rw [revise_mem_snd cw doms h w] at hmem
      rw [hmem.2] at hf
      cases hf
    · rintro ⟨w, hw, hnot⟩
      refine ⟨w, hw, ?_⟩
      cases hsupp : hasSupport doms y a b w
      · rfl
      · exact absurd ((revise_mem_snd cw doms h w).mpr ⟨hw, hsupp⟩) hnot

theorem revise_postcondition_witness :
    exPair.overlaps 0 1 = some (0, 0)
    ∧ ((revise exPair exPairDoms 0 1).1 = true ↔
        ∃ w, w ∈ exPairDoms 0 ∧ w ∉ (revise exPair exPairDoms 0 1).2 0) :=
  ⟨by decide, ((revise_postcondition exPair exPairDoms 0 1).2 0 0 (by decide)).2.2⟩

/-- C8: `consistent` returns true iff every assigned word has its slot's
length, no two distinct assigned slots hold the same word, and every
overlapping pair of distinct assigned slots agrees at the shared cell. -/
theorem consistent_characterization (cw : Crossword) (a : Assignment) :
    consistent cw a = true ↔
      ((∀ p ∈ a, cw.length p.1 = p.2.length)
        ∧ (∀ p ∈ a, ∀ q ∈ a, p.1 ≠ q.1 → p.2 ≠ q.2)
        ∧ (∀ p ∈ a, ∀ q ∈ a, p.1 ≠ q.1 → ∀ o1 o2,
            cw.overlaps p.1 q.1 = some (o1, o2) → charAt p.2 o1 = charAt q.2 o2)) := by
  unfold consistent
  rw [List.all_eq_true]
  constructor
  · intro h
    refine ⟨fun p hp => ?_, fun p hp q hq hpq => ?_, fun p hp q hq hpq o1 o2 hov => ?_⟩
    · have hpa := h p hp
      rw [Bool.and_eq_true] at hpa
      exact beq_iff_eq.mp hpa.1
    · have hpa := h p hp
      rw [Bool.and_eq_true, List.all_eq_true] at hpa
      have hq' := hpa.2 q hq
      have hc : (p.1 == q.1) = false := beq_eq_false_iff_ne.mpr hpq
      rw [hc] at hq'
      simp only [Bool.false_eq_true, if_false, Bool.and_eq_true] at hq'
      simpa using hq'.1
    · have hpa := h p hp
      rw [Bool.and_eq_true, List.all_eq_true] at hpa
      have hq' := hpa.2 q hq
      have hc : (p.1 == q.1) = false := beq_eq_false_iff_ne.mpr hpq
      rw [hc] at hq'
      simp only [Bool.false_eq_true, if_false, Bool.and_eq_true] at hq'
      have hmatch := hq'.2
      rw [hov] at hmatch
      exact beq_iff_eq.mp hmatch
  · rintro ⟨h1, h2, h3⟩ p hp
    rw [Bool.and_eq_true]
    refine ⟨beq_iff_eq.mpr (h1 p hp), ?_⟩
    rw [List.all_eq_true]
    intro q hq
    by_cases hpq : p.1 = q.1
    · have hc : (p.1 == q.1) = true := beq_iff_eq.mpr hpq
      simp [hc]
    · have hc : (p.1 == q.1) = false := beq_eq_false_iff_ne.mpr hpq
      rw [hc]
      simp only [Bool.false_eq_true, if_false, Bool.and_eq_true]
      refine ⟨by simpa using h2 p hp q hq hpq, ?_⟩
      rcases hov : cw.overlaps p.1 q.1 with _ | ⟨o1, o2⟩
      · simp
      · simpa using h3 p hp q hq hpq o1 o2 hov

theorem consistent_characterization_witness :
    ∀ p ∈ exGridSol, exGrid.length p.1 = p.2.length :=
  ((consistent_characterization exGrid exGridSol).mp (by decide)).1

/-! Helper lemmas about the stable insertion sort and the selection key. -/

lemma mem_insertLe {α : Type} (le : α → α → Bool) (a x : α) :
    ∀ l : List α, x ∈ insertLe le a l ↔ x = a ∨ x ∈ l := by
  intro l
  induction l with
  | nil => simp [insertLe]
  | cons b t ih =>
    simp only [insertLe]
    split
    · simp [List.mem_cons]
    · rw [List.mem_cons, ih, List.mem_cons]
      tauto

lemma mem_sortLe {α : Type} (le : α → α → Bool) (x : α) :
    ∀ l : List α, x ∈ sortLe le l ↔ x ∈ l := by
  intro l
  induction l with
  | nil => simp [sortLe]
  | cons a t ih =>
    simp only [sortLe]
    rw [mem_insertLe, ih, List.mem_cons]

lemma pairwise_insertLe {α : Type} {le : α → α → Bool}
    (htot : ∀ p q, le p q = true ∨ le q p = true)
    (htrans : ∀ p q r, le p q = true → le q r = true → le p r = true)
    (a : α) :
    ∀ l : List α, l.Pairwise (fun p q => le p q = true) →
      (insertLe le a l).Pairwise (fun p q => le p q = true) := by
  intro l
  induction l with
  | nil =>
    intro _
    simp [insertLe]
  | cons b t ih =>
    intro hp
    rw [List.pairwise_cons] at hp
    obtain ⟨hb, ht⟩ := hp
    simp only [insertLe]
    split
    · rename_i hab
      rw [List.pairwise_cons]
      refine ⟨?_, ?_⟩
      · intro c hc
        rw [List.mem_cons] at hc
        rcases hc with rfl | hc
        · exact hab
        · exact htrans a b c hab (hb c hc)
      · rw [List.pairwise_cons]
        exact ⟨hb, ht⟩
    · rename_i hab
      have hba : le b a = true := by
        rcases htot a b with h | h
        · exact absurd h hab
        · exact h
      rw [List.pairwise_cons]
      refine ⟨?_, ih ht⟩
      intro c hc
      rw [mem_insertLe] at hc
      rcases hc with rfl | hc
      · exact hba
      · exact hb c hc

lemma pairwise_sortLe {α : Type} {le : α → α → Bool}
    (htot : ∀ p q, le p q = true ∨ le q p = true)
    (htrans : ∀ p q r, le p q = true → le q r = true → le p r = true) :
    ∀ l : List α, (sortLe le l).Pairwise (fun p q => le p q = true) := by
  intro l
  induction l with
  | nil => simp [sortLe]
  | cons a t ih => exact pairwise_insertLe htot htrans a _ ih

lemma selLe_total (p q : Nat × Nat × Nat) : selLe p q = true ∨ selLe q p = true := by
  unfold selLe
  simp only [Bool.or_eq_true, Bool.and_eq_true, decide_eq_true_eq, beq_iff_eq]
  omega

lemma selLe_trans (p q r : Nat × Nat × Nat) (h1 : selLe p q = true)
    (h2 : selLe q r = true) : selLe p r = true := by
  unfold selLe at h1 h2 ⊢
  simp only [Bool.or_eq_true, Bool.and_eq_true, decide_eq_true_eq, beq_iff_eq] at h1 h2 ⊢
  omega

lemma selLe_dom_le (p q : Nat × Nat × Nat) (h : selLe p q = true) : p.2.1 ≤ q.2.1 := by
  unfold selLe at h
  simp only [Bool.or_eq_true, Bool.and_eq_true, decide_eq_true_eq, beq_iff_eq] at h
  omega

lemma selLe_deg_ge (p q : Nat × Nat × Nat) (h : selLe p q = true)
    (he : p.2.1 = q.2.1) : q.2.2 ≤ p.2.2 := by
  unfold selLe at h
  simp only [Bool.or_eq_true, Bool.and_eq_true, decide_eq_true_eq, beq_iff_eq] at h
  omega

/-- C9: on an assignment leaving some slot unassigned,
`select_unassigned_variable` returns an unassigned slot of minimal domain
size, of maximal degree among those; when every slot is assigned it returns
`none`. -/
theorem select_unassigned_variable_spec (cw : Crossword) (doms : Domains) (a : Assignment) :
    ((∀ v ∈ cw.vars, assignedB a v = true) → select_unassigned_variable cw doms a = none)
    ∧ (∀ v ∈ cw.vars, assignedB a v = false →
        ∃ u, select_unassigned_variable cw doms a = some u
          ∧ u ∈ cw.vars ∧ assignedB a u = false
          ∧ (∀ v2 ∈ cw.vars, assignedB a v2 = false →
              (doms u).length ≤ (doms v2).length)
          ∧ (∀ v2 ∈ cw.vars, assignedB a v2 = false →
              (doms v2).length = (doms u).length →
              (neighbors cw v2).length ≤ (neighbors cw u).length)) := by
  constructor
  · intro h
    unfold select_unassigned_variable
    have hf : cw.vars.filter (fun v => !(assignedB a v)) = [] := by
      rw [List.filter_eq_nil_iff]
      intro v hv
      simp [h v hv]
    unfold selPool
    rw [hf]
    rfl
  · intro v hv hva
    have hvf : v ∈ cw.vars.filter (fun v2 => !(assignedB a v2)) := by
      rw [List.mem_filter]
      exact ⟨hv, by simp [hva]⟩
    have hpv : (v, (doms v).length, (neighbors cw v).length) ∈ selPool cw doms a :=
      List.mem_map_of_mem _ hvf
    have hmem : (v, (doms v).length, (neighbors cw v).length) ∈ sortLe selLe (selPool cw doms a) :=
      (mem_sortLe _ _ _).mpr hpv
    rcases hsort : sortLe selLe (selPool cw doms a) with _ | ⟨p, t⟩
    · rw [hsort] at hmem
      cases hmem
    · have hpmem : p ∈ sortLe selLe (selPool cw doms a) := by
        rw [hsort]
        exact List.mem_cons_self _ _
      have hp_in : p ∈ selPool cw doms a := (mem_sortLe _ _ _).mp hpmem
      rw [selPool, List.mem_map] at hp_in
      obtain ⟨u, huf, hup⟩ := hp_in
      rw [List.mem_filter] at huf
      have hpair := pairwise_sortLe selLe_total selLe_trans (selPool cw doms a)
      rw [hsort, List.pairwise_cons] at hpair
      have hmin : ∀ q ∈ selPool cw doms a, selLe p q = true := by
        intro q hq
        have hq2 : q ∈ sortLe selLe (selPool cw doms a) := (mem_sortLe _ _ _).mpr hq
        rw [hsort, List.mem_cons] at hq2
        rcases hq2 with rfl | hq2
        · rcases selLe_total q q with h | h <;> exact h
        · exact hpair.1 q hq2
      subst hup
      refine ⟨u, ?_, huf.1, by simpa using huf.2, ?_, ?_⟩
      · unfold select_unassigned_variable
        rw [hsort]
      · intro v2 hv2 hv2a
        have hq : (v2, (doms v2).length, (neighbors cw v2).length) ∈ selPool cw doms a :=
          List.mem_map_of_mem _ (by rw [List.mem_filter]; exact ⟨hv2, by simp [hv2a]⟩)
        exact selLe_dom_le _ _ (hmin _ hq)
      · intro v2 hv2 hv2a he
        have hq : (v2, (doms v2).length, (neighbors cw v2).length) ∈ selPool cw doms a :=
          List.mem_map_of_mem _ (by rw [List.mem_filter]; exact ⟨hv2, by simp [hv2a]⟩)
        exact selLe_deg_ge _ _ (hmin _ hq) he.symm

theorem select_unassigned_variable_spec_witness :
    (0 ∈ exPair.vars ∧ assignedB [] 0 = false)
    ∧ ∃ u, select_unassigned_variable exPair exPairDoms [] = some u
        ∧ u ∈ exPair.vars ∧ assignedB [] u = false
        ∧ (∀ v2 ∈ exPair.vars, assignedB [] v2 = false →
            (exPairDoms u).length ≤ (exPairDoms v2).length)
        ∧ (∀ v2 ∈ exPair.vars, assignedB [] v2 = false →
            (exPairDoms v2).length = (exPairDoms u).length →
            (neighbors exPair v2).length ≤ (neighbors exPair u).length) :=
  ⟨⟨by decide, by decide⟩,
    (select_unassigned_variable_spec exPair exPairDoms []).2 0 (by decide) (by decide)⟩

/-! Helper lemmas for the AC-3 worklist loop. -/

lemma mem_neighbors (cw : Crossword) (v z : Nat) :
    z ∈ neighbors cw v ↔ z ∈ cw.vars ∧ z ≠ v ∧ (cw.overlaps v z).isSome = true := by
  rw [neighbors, List.mem_filter, Bool.and_eq_true, Bool.not_eq_true', beq_eq_false_iff_ne]

lemma neighbors_length_le (cw : Crossword) (v : Nat) :
    (neighbors cw v).length ≤ cw.vars.length :=
  List.length_filter_le _ _

lemma mem_initArcs_aux (cw : Crossword) (x y : Nat) :
    ∀ vs : List Nat,
      ((x, y) ∈ vs.foldr (fun v1 acc => (neighbors cw v1).map (fun v2 => (v1, v2)) ++ acc) [])
        ↔ x ∈ vs ∧ y ∈ neighbors cw x := by
  intro vs
  induction vs with
  | nil => simp
  | cons u rest ih =>
    simp only [List.foldr_cons, List.mem_append, ih, List.mem_cons]
    rw [List.mem_map]
    constructor
    · rintro (⟨v2, hv2, heq⟩ | ⟨hx, hy⟩)
      · injection heq with h1 h2
        subst h1
        subst h2
        exact ⟨Or.inl rfl, hv2⟩
      · exact ⟨Or.inr hx, hy⟩
    · rintro ⟨rfl | hx, hy⟩
      · exact Or.inl ⟨y, hy, rfl⟩
      · exact Or.inr ⟨hx, hy⟩

lemma initArcs_fst (cw : Crossword) : ∀ p ∈ initArcs cw, p.1 ∈ cw.vars := by
  rintro ⟨x, y⟩ hp
  exact ((mem_initArcs_aux cw x y cw.vars).mp hp).1

lemma domSize_lt_of_revise_true (cw : Crossword) (doms : Domains) {x y : Nat}
    (hx : x ∈ cw.vars) (h : (revise cw doms x y).1 = true) :
    domSize cw (revise cw doms x y).2 < domSize cw doms := by
  unfold domSize
  apply List.sum_lt_sum
  · intro v hv
    by_cases hvx : v = x
    · rw [hvx]
      exact (revise_true_length_lt cw doms h).le
    · rw [revise_snd_ne cw doms x y hvx]
  · exact ⟨x, hx, revise_true_length_lt cw doms h⟩

lemma acLoop_isSome (cw : Crossword) :
    ∀ (fuel : Nat) (doms : Domains) (arcs : List (Nat × Nat)),
      (∀ p ∈ arcs, p.1 ∈ cw.vars) →
      acMeasure cw doms arcs < fuel →
      (acLoop cw fuel doms arcs).isSome = true := by
  intro fuel
  induction fuel with
  | zero =>
    intro doms arcs _ hm
    exact absurd hm (Nat.not_lt_zero _)
  | succ fuel ih =>
    intro doms arcs harcs hm
    rcases arcs with _ | ⟨⟨x, y⟩, rest⟩
    · rfl
    · rcases hrev : revise cw doms x y with ⟨b, d1⟩
      cases b
      · have hfalse : (revise cw doms x y).1 = false := by rw [hrev]
        have hd1 : d1 = doms := by
          have h2 := revise_fst_false_eq cw doms hfalse
          rw [hrev] at h2
          exact h2
        subst hd1
        simp only [acLoop, hrev]
        apply ih d1 rest
        · intro p hp
          exact harcs p (List.mem_cons_of_mem _ hp)
        · unfold acMeasure at hm ⊢
          rw [List.length_cons] at hm
          omega
      · simp only [acLoop, hrev]
        by_cases hemp : (d1 x).isEmpty = true
        · simp [hemp]
        · rw [if_neg hemp]
          apply ih d1 _
          · intro p hp
            rw [List.mem_append] at hp
            rcases hp with hp | hp
            · exact harcs p (List.mem_cons_of_mem _ hp)
            · rw [List.mem_map] at hp
              obtain ⟨z, hz, hzp⟩ := hp
              rw [List.mem_filter] at hz
              have hz2 := (mem_neighbors cw x z).mp hz.1
              rw [← hzp]
              exact hz2.1
          · have htrue : (revise cw doms x y).1 = true := by rw [hrev]
            have hx : x ∈ cw.vars := harcs (x, y) (List.mem_cons_self _ _)
            have hsize : domSize cw d1 < domSize cw doms := by
              have h2 := domSize_lt_of_revise_true cw doms hx htrue
              rw [hrev] at h2
              exact h2
            have hlen : (((neighbors cw x).filter (fun z => !(z == y))).map
                (fun z => (z, x))).length ≤ cw.vars.length := by
              rw [List.length_map]
              exact le_trans (List.length_filter_le _ _) (neighbors_length_le cw x)
            unfold acMeasure at hm ⊢
            rw [List.length_cons] at hm
            rw [List.length_append]
            have hmul : domSize cw d1 * (cw.vars.length + 1) + (cw.vars.length + 1)
                ≤ domSize cw doms * (cw.vars.length + 1) := by
              have h3 : domSize cw d1 + 1 ≤ domSize cw doms := hsize
              calc domSize cw d1 * (cw.vars.length + 1) + (cw.vars.length + 1)
                  = (domSize cw d1 + 1) * (cw.vars.length + 1) := by ring
                _ ≤ domSize cw doms * (cw.vars.length + 1) :=
                    Nat.mul_le_mul_right _ h3
            omega

/-- C6: the AC-3 worklist loop terminates: the explicit fuel bound
`acMeasure + 1` (domains shrink monotonically, re-enqueuing at most
`|variables|` arcs per shrink) is always enough for the loop to produce an
answer rather than run forever. -/
theorem ac3_terminates (cw : Crossword) (doms : Domains) (arcs : List (Nat × Nat))
    (harcs : ∀ p ∈ arcs, p.1 ∈ cw.vars) :
    (acLoop cw (acMeasure cw doms arcs + 1) doms arcs).isSome = true :=
  acLoop_isSome cw _ doms arcs harcs (Nat.lt_succ_self _)

theorem ac3_terminates_witness :
    (∀ p ∈ [((0 : Nat), (1 : Nat))], p.1 ∈ exPair.vars)
    ∧ (acLoop exPair (acMeasure exPair exPairDoms [(0, 1)] + 1) exPairDoms
        [(0, 1)]).isSome = true :=
  ⟨by decide, ac3_terminates exPair exPairDoms [(0, 1)] (by decide)⟩

lemma acLoop_false_empty (cw : Crossword) :
    ∀ (fuel : Nat) (doms : Domains) (arcs : List (Nat × Nat)) (d' : Domains),
      acLoop cw fuel doms arcs = some (false, d') → ∃ x, d' x = [] := by
  intro fuel
  induction fuel with
  | zero =>
    intro doms arcs d' h
    simp [acLoop] at h
  | succ fuel ih =>
    intro doms arcs d' h
    rcases arcs with _ | ⟨⟨x, y⟩, rest⟩
    · simp [acLoop] at h
    · rcases hrev : revise cw doms x y with ⟨b, d1⟩
      cases b
      · simp only [acLoop, hrev] at h
        exact ih d1 rest d' h
      · simp only [acLoop, hrev] at h
        by_cases hemp : (d1 x).isEmpty = true
        · rw [if_pos hemp] at h
          simp only [Option.some.injEq, Prod.mk.injEq, true_and] at h
          refine ⟨x, ?_⟩
          rw [← h]
          exact List.isEmpty_iff.mp hemp
        · rw [if_neg hemp] at h
          exact ih d1 _ d' h

lemma acLoop_true_nonempty (cw : Crossword) :
    ∀ (fuel : Nat) (doms : Domains) (arcs : List (Nat × Nat)) (d' : Domains),
      acLoop cw fuel doms arcs = some (true, d') →
      ∀ x, doms x ≠ [] → d' x ≠ [] := by
  intro fuel
  induction fuel with
  | zero =>
    intro doms arcs d' h
    simp [acLoop] at h
  | succ fuel ih =>
    intro doms arcs d' h
    rcases arcs with _ | ⟨⟨x, y⟩, rest⟩
    · simp only [acLoop, Option.some.injEq, Prod.mk.injEq, true_and] at h
      rw [← h]
      exact fun z hz => hz
    · rcases hrev : revise cw doms x y with ⟨b, d1⟩
      cases b
      · have hfalse : (revise cw doms x y).1 = false := by rw [hrev]
        have hd1 : d1 = doms := by
          have h2 := revise_fst_false_eq cw doms hfalse
          rw [hrev] at h2
          exact h2
        subst hd1
        simp only [acLoop, hrev] at h
        exact ih d1 rest d' h
      · simp only [acLoop, hrev] at h
        by_cases hemp : (d1 x).isEmpty = true
        · rw [if_pos hemp] at h
          simp at h
        · rw [if_neg hemp] at h
          intro z hz
          apply ih d1 _ d' h
          by_cases hzx : z = x
          · rw [hzx]
            intro hnil
            rw [hnil] at hemp
            simp at hemp
          · have h3 := revise_snd_ne cw doms x y hzx
            rw [hrev] at h3
            have h4 : d1 z = doms z := h3
            rw [h4]
            exact hz

/-- C5: failure detection of `ac3`.  (1) If popping an arc `(x, y)` makes a
revision that empties `domain(x)`, the loop returns false immediately with
that store, regardless of remaining fuel or worklist.  (2) If `ac3` with no
initial arc list returns false, some domain in the final store is empty.
(3) It returns true only if no nonempty domain was emptied along the way. -/
theorem ac3_failure_detection (cw : Crossword) :
    (∀ (doms : Domains) (x y : Nat) (rest : List (Nat × Nat)) (fuel : Nat),
        (revise cw doms x y).1 = true → (revise cw doms x y).2 x = [] →
        acLoop cw (fuel + 1) doms ((x, y) :: rest) = some (false, (revise cw doms x y).2))
    ∧ (∀ doms : Domains, (ac3 cw doms none).1 = false →
        ∃ x, (ac3 cw doms none).2 x = [])
    ∧ (∀ doms : Domains, (ac3 cw doms none).1 = true →
        ∀ x, doms x ≠ [] → (ac3 cw doms none).2 x ≠ []) := by
  refine ⟨?_, ?_, ?_⟩
  · intro doms x y rest fuel ht he
    have hrev : revise cw doms x y = (true, (revise cw doms x y).2) :=
      Prod.ext_iff.mpr ⟨ht, rfl⟩
    rcases hr2 : (revise cw doms x y).2 with d1
    rw [hr2] at hrev he
    simp only [acLoop, hrev]
    rw [if_pos (List.isEmpty_iff.mpr he)]
  · intro doms hf
    have hsome := acLoop_isSome cw (acMeasure cw doms (initArcs cw) + 1) doms
      (initArcs cw) (initArcs_fst cw) (Nat.lt_succ_self _)
    rcases hopt : acLoop cw (acMeasure cw doms (initArcs cw) + 1) doms (initArcs cw)
      with _ | ⟨b, d2⟩
    · rw [hopt] at hsome
      simp at hsome
    · have hac : ac3 cw doms none = (b, d2) := by
        simp only [ac3]
        rw [hopt]
        rfl
      rw [hac] at hf ⊢
      have hb : b = false := hf
      subst hb
      exact acLoop_false_empty cw _ doms (initArcs cw) d2 hopt
  · intro doms ht
    have hsome := acLoop_isSome cw (acMeasure cw doms (initArcs cw) + 1) doms
      (initArcs cw) (initArcs_fst cw) (Nat.lt_succ_self _)
    rcases hopt : acLoop cw (acMeasure cw doms (initArcs cw) + 1) doms (initArcs cw)
      with _ | ⟨b, d2⟩
    · rw [hopt] at hsome
      simp at hsome
    · have hac : ac3 cw doms none = (b, d2) := by
        simp only [ac3]
        rw [hopt]
        rfl
      rw [hac] at ht ⊢
      have hb : b = true := ht
      subst hb
      exact acLoop_true_nonempty cw _ doms (initArcs cw) d2 hopt

theorem ac3_failure_detection_witness :
    (revise exClash exClashDoms 0 1).1 = true
    ∧ (revise exClash exClashDoms 0 1).2 0 = []
    ∧ acLoop exClash 1 exClashDoms [(0, 1)]
        = some (false, (revise exClash exClashDoms 0 1).2) :=
  ⟨by decide, by decide,
    (ac3_failure_detection exClash).1 exClashDoms 0 1 [] 0 (by decide) (by decide)⟩

lemma acLoop_true_supported (cw : Crossword)
    (hsymm : ∀ x ∈ cw.vars, ∀ y ∈ cw.vars,
      cw.overlaps y x = (cw.overlaps x y).map Prod.swap) :
    ∀ (fuel : Nat) (doms : Domains) (arcs : List (Nat × Nat)) (d' : Domains),
      (∀ u ∈ cw.vars, ∀ v ∈ neighbors cw u, (u, v) ∈ arcs ∨ SuppProp cw doms u v) →
      acLoop cw fuel doms arcs = some (true, d') →
      ∀ u ∈ cw.vars, ∀ v ∈ neighbors cw u, SuppProp cw d' u v := by
  intro fuel
  induction fuel with
  | zero =>
    intro doms arcs d' _ h
    simp [acLoop] at h
  | succ fuel ih =>
    intro doms arcs d' hinv h
    rcases arcs with _ | ⟨⟨x, y⟩, rest⟩
    · simp only [acLoop, Option.some.injEq, Prod.mk.injEq, true_and] at h
      subst h
      intro u hu v hv
      rcases hinv u hu v hv with hmem | hsupp
      · exact absurd hmem (List.not_mem_nil _)
      · exact hsupp
    · rcases hrev : revise cw doms x y with ⟨b, d1⟩
      cases b
      · -- no revision: domains unchanged, pair (x, y) became supported
        have hfalse : (revise cw doms x y).1 = false := by rw [hrev]
        have hd1 : d1 = doms := by
          have h2 := revise_fst_false_eq cw doms hfalse
          rw [hrev] at h2
          exact h2
        subst hd1
        simp only [acLoop, hrev] at h
        refine ih d1 rest d' ?_ h
        intro u hu v hv
        rcases hinv u hu v hv with hmem | hsupp
        · rw [List.mem_cons] at hmem
          rcases hmem with heq | hmem
          · injection heq with h1 h2
            subst h1
            subst h2
            refine Or.inr ?_
            intro a b hov w hw
            have hnot : ¬ ∃ w2 ∈ d1 u, hasSupport d1 v a b w2 = false := by
              rw [← revise_fst_true_iff cw d1 hov, hfalse]
              simp
            have hsup : hasSupport d1 v a b w = true := by
              cases hcase : hasSupport d1 v a b w
              · exact absurd ⟨w, hw, hcase⟩ hnot
              · rfl
            rw [hasSupport_iff] at hsup
            exact hsup
          · exact Or.inl hmem
        · exact Or.inr hsupp
      · -- a revision took place
        have htrue : (revise cw doms x y).1 = true := by rw [hrev]
        have hd1snd : (revise cw doms x y).2 = d1 := by rw [hrev]
        simp only [acLoop, hrev] at h
        by_cases hemp : (d1 x).isEmpty = true
        · rw [if_pos hemp] at h
          simp at h
        · rw [if_neg hemp] at h
          obtain ⟨a0, b0, hov0⟩ := revise_true_overlap cw doms htrue
          have hdx : ∀ w : Word, w ∈ d1 x ↔
              w ∈ doms x ∧ hasSupport doms y a0 b0 w = true := by
            intro w
            rw [← hd1snd]
            exact revise_mem_snd cw doms hov0 w
          have hdz : ∀ z, z ≠ x → d1 z = doms z := by
            intro z hz
            rw [← hd1snd]
            exact revise_snd_ne cw doms x y hz
          refine ih d1 _ d' ?_ h
          intro u hu v hv
          by_cases hux : u = x
          · subst hux
            by_cases hvy : v = y
            · subst hvy
              -- the freshly revised arc (u, v) is now supported
              refine Or.inr ?_
              intro a b hov w hw
              rw [hov0] at hov
              injection hov with hab
              injection hab with ha hb
              subst ha
              subst hb
              have hvu : v ≠ u := ((mem_neighbors cw u v).mp hv).2.1
              obtain ⟨hwx, hsupp⟩ := (hdx w).mp hw
              rw [hasSupport_iff] at hsupp
              obtain ⟨j, hj, hne, hch⟩ := hsupp
              refine ⟨j, ?_, hne, hch⟩
              rw [hdz v hvu]
              exact hj
            · -- arc (u, v) with v ≠ y: still queued or still supported
              rcases hinv u hu v hv with hmem | hsupp
              · rw [List.mem_cons] at hmem
                rcases hmem with heq | hmem
                · injection heq with h1 h2
                  exact absurd h2 hvy
                · exact Or.inl (by rw [List.mem_append]; exact Or.inl hmem)
              · refine Or.inr ?_
                intro a b hov w hw
                have hvu : v ≠ u := ((mem_neighbors cw u v).mp hv).2.1
                have hw2 : w ∈ doms u := ((hdx w).mp hw).1
                obtain ⟨j, hj, hne, hch⟩ := hsupp a b hov w hw2
                refine ⟨j, ?_, hne, hch⟩
                rw [hdz v hvu]
                exact hj
          · by_cases hvx : v = x
            · subst hvx
              -- arc (u, v) pointing at the shrunk slot v
              have hv2 := (mem_neighbors cw u v).mp hv
              have hvvars : v ∈ cw.vars := hv2.1
              have hvu : v ≠ u := hv2.2.1
              have hu_in : u ∈ neighbors cw v := by
                rw [mem_neighbors]
                refine ⟨hu, fun h5 => hvu h5.symm, ?_⟩
                obtain ⟨p, hp⟩ := Option.isSome_iff_exists.mp hv2.2.2
                rw [hsymm u hu v hvvars, hp]
                rfl
              by_cases huy : u = y
              · subst huy
                -- the reverse arc (u, v) of the popped (v, u): symmetry argument
                rcases hinv u hu v hv with hmem | hsupp
                · rw [List.mem_cons] at hmem
                  rcases hmem with heq | hmem
                  · injection heq with h1 h2
                    exact absurd h1 (fun h5 => hvu h5.symm)
                  · exact Or.inl (by rw [List.mem_append]; exact Or.inl hmem)
                · refine Or.inr ?_
                  intro a b hov w hw
                  have hsym2 := hsymm v hvvars u hu
                  rw [hov0, hov] at hsym2
                  injection hsym2 with hab
                  injection hab with ha hb
                  rw [hdz u (fun h5 => hvu h5.symm)] at hw
                  obtain ⟨j, hj, hne, hch⟩ := hsupp a b hov w hw
                  refine ⟨j, ?_, hne, hch⟩
                  rw [hdx j]
                  refine ⟨hj, ?_⟩
                  rw [hasSupport_iff]
                  refine ⟨w, hw, fun h5 => hne h5.symm, ?_⟩
                  have ha2 : a = b0 := ha
                  have hb2 : b = a0 := hb
                  subst ha2
                  subst hb2
                  exact hch.symm
              · -- u gets re-enqueued against the shrunk slot
                refine Or.inl ?_
                rw [List.mem_append]
                right
                rw [List.mem_map]
                refine ⟨u, ?_, rfl⟩
                rw [List.mem_filter]
                refine ⟨hu_in, by simp [huy]⟩
            · -- neither endpoint is the shrunk slot: nothing changed
              rcases hinv u hu v hv with hmem | hsupp
              · rw [List.mem_cons] at hmem
                rcases hmem with heq | hmem
                · injection heq with h1 h2
                  exact absurd h1 hux
                · exact Or.inl (by rw [List.mem_append]; exact Or.inl hmem)
              · refine Or.inr ?_
                intro a b hov w hw
                rw [hdz u hux] at hw
                obtain ⟨j, hj, hne, hch⟩ := hsupp a b hov w hw
                refine ⟨j, ?_, hne, hch⟩
                rw [hdz v hvx]
                exact hj

/-- C4: soundness of arc consistency.  For a puzzle graph with symmetric
overlaps, if `ac3` with no initial arc list returns true, then in the
resulting domain store every word of every slot has, for each neighboring
slot, a distinct supporting word agreeing at the overlap offsets. -/
theorem ac3_soundness (cw : Crossword) (doms : Domains)
    (hsymm : ∀ x ∈ cw.vars, ∀ y ∈ cw.vars,
      cw.overlaps y x = (cw.overlaps x y).map Prod.swap)
    (hrun : (ac3 cw doms none).1 = true) :
    ∀ x ∈ cw.vars, ∀ y ∈ neighbors cw x, ∀ o1 o2, cw.overlaps x y = some (o1, o2) →
      ∀ w ∈ (ac3 cw doms none).2 x,
        ∃ j, j ∈ (ac3 cw doms none).2 y ∧ w ≠ j ∧ charAt w o1 = charAt j o2 := by
  have hsome := acLoop_isSome cw (acMeasure cw doms (initArcs cw) + 1) doms
    (initArcs cw) (initArcs_fst cw) (Nat.lt_succ_self _)
  rcases hopt : acLoop cw (acMeasure cw doms (initArcs cw) + 1) doms (initArcs cw)
    with _ | ⟨b, d2⟩
  · rw [hopt] at hsome
    simp at hsome
  · have hac : ac3 cw doms none = (b, d2) := by
      simp only [ac3]
      rw [hopt]
      rfl
    rw [hac] at hrun ⊢
    have hb : b = true := hrun
    subst hb
    have hinv0 : ∀ u ∈ cw.vars, ∀ v ∈ neighbors cw u,
        (u, v) ∈ initArcs cw ∨ SuppProp cw doms u v :=
      fun u hu v hv => Or.inl ((mem_initArcs_aux cw u v cw.vars).mpr ⟨hu, hv⟩)
    intro x hx y hy o1 o2 hov w hw
    exact acLoop_true_supported cw hsymm _ doms (initArcs cw) d2 hinv0 hopt
      x hx y hy o1 o2 hov w hw

theorem ac3_soundness_witness :
    (∀ x ∈ exPair.vars, ∀ y ∈ exPair.vars,
        exPair.overlaps y x = (exPair.overlaps x y).map Prod.swap)
    ∧ (ac3 exPair exPairDoms none).1 = true
    ∧ ∃ j, j ∈ (ac3 exPair exPairDoms none).2 1
        ∧ (['a', 'b'] : Word) ≠ j ∧ charAt ['a', 'b'] 0 = charAt j 0 :=
  ⟨by decide, by decide,
    ac3_soundness exPair exPairDoms (by decide) (by decide) 0 (by decide) 1
      (by decide) 0 0 (by decide) ['a', 'b'] (by decide)⟩

/-- C1: the claim fails on the code.  `exGrid` is satisfiable (the complete
assignment `exGridSol` passes both `assignment_complete` and `consistent`),
yet `solve` returns the failure signal `none`; the extra conjunct runs the
search with far more fuel than its depth can use, showing the failure is the
algorithm's and not the embedding's fuel bound.  The root cause is that
`backtrack` does not unbind a slot when the recursive call after a
consistent tentative binding fails. -/
theorem solve_misses_solution :
    solve exGrid = none
    ∧ assignment_complete exGrid exGridSol = true
    ∧ consistent exGrid exGridSol = true
    ∧ (backtrack exGrid
        ((ac3 exGrid (enforce_node_consistency exGrid (initial_domains exGrid)) none).2)
        20 []).1 = none := by
  refine ⟨by decide, by decide, by decide, by decide⟩

/-- C2: the claim fails on the code.  On the unsatisfiable `exTriple`,
`backtrack` entered with the empty assignment returns the failure signal,
but the final state of the (in-place mutated) assignment still contains the
binding `1 ↦ "b"` added during the call: the binding made before a
consistent-but-failing recursive call is never popped. -/
theorem backtrack_keeps_stale_binding :
    backtrack exTriple exTripleDoms 4 [] = (none, [(1, ['b'])])
    ∧ ([(1, ['b'])] : Assignment) ≠ []
    ∧ solve exTriple = none := by
  refine ⟨by decide, by decide, by decide⟩

/-- C10: a puzzle graph with no slots: `backtrack({})` finds the empty
assignment complete and `solve` returns it as a success value, not the
failure signal. -/
theorem solve_no_slots (cw : Crossword) (h : cw.vars = []) :
    solve cw = some [] ∧ assignment_complete cw [] = true := by
  constructor
  · simp [solve, backtrack, assignment_complete, h]
  · simp [assignment_complete, h]

theorem solve_no_slots_witness :
    exNoSlots.vars = ([] : List Nat)
    ∧ (solve exNoSlots = some [] ∧ assignment_complete exNoSlots [] = true) :=
  ⟨by decide, solve_no_slots exNoSlots (by decide)⟩

/-! Soundness of the search result itself (relevant to the first half of the
search-correctness property): whenever `backtrack` produces an assignment,
that assignment is complete and consistent, even though the missing unbind
can make the search incomplete. -/

lemma backtrackGo_some_sound (cw : Crossword) (var : Nat)
    (bt : Assignment → Option Assignment × Assignment)
    (hbt : ∀ a1 r a2, bt a1 = (some r, a2) →
      (r = a1 ∧ assignment_complete cw a1 = true)
      ∨ (assignment_complete cw r = true ∧ consistent cw r = true)) :
    ∀ (values : List Word) (a r a2 : Assignment),
      backtrackGo cw var bt values a = (some r, a2) →
      assignment_complete cw r = true ∧ consistent cw r = true := by
  intro values
  induction values with
  | nil =>
    intro a r a2 h
    simp [backtrackGo, Prod.ext_iff] at h
  | cons w rest ih =>
    intro a r a2 h
    simp only [backtrackGo] at h
    by_cases hcons : consistent cw (setA a var w) = true
    · rw [if_pos hcons] at h
      rcases hbt2 : bt (setA a var w) with ⟨ro, a3⟩
      rw [hbt2] at h
      by_cases htr : truthy ro = true
      · rw [if_pos htr] at h
        have h1 : ro = some r := (Prod.ext_iff.mp h).1
        rcases hbt (setA a var w) r a3 (by rw [hbt2, h1]) with ⟨hr, hcomp⟩ | hok
        · exact ⟨by rw [hr]; exact hcomp, by rw [hr]; exact hcons⟩
        · exact hok
      · rw [if_neg htr] at h
        exact ih _ r a2 h
    · rw [if_neg hcons] at h
      exact ih _ r a2 h

lemma backtrack_some_sound (cw : Crossword) (doms : Domains) :
    ∀ (fuel : Nat) (a r a2 : Assignment),
      backtrack cw doms fuel a = (some r, a2) →
      (r = a ∧ assignment_complete cw a = true)
      ∨ (assignment_complete cw r = true ∧ consistent cw r = true) := by
  intro fuel
  induction fuel with
  | zero =>
    intro a r a2 h
    simp [backtrack, Prod.ext_iff] at h
  | succ fuel ih =>
    intro a r a2 h
    simp only [backtrack] at h
    by_cases hc : assignment_complete cw a = true
    · rw [if_pos hc] at h
      have h1 : some a = some r := (Prod.ext_iff.mp h).1
      injection h1 with h2
      exact Or.inl ⟨h2.symm, hc⟩
    · rw [if_neg hc] at h
      rcases hsel : select_unassigned_variable cw doms a with _ | var
      · rw [hsel] at h
        exact absurd (Prod.ext_iff.mp h).1 (by simp)
      · rw [hsel] at h
        refine Or.inr
          (backtrackGo_some_sound cw var (backtrack cw doms fuel) ?_ _ a r a2 h)
        intro a1 r1 a3 h1
        exact ih a1 r1 a3 h1

lemma solve_sound (cw : Crossword) (r : Assignment) (h : solve cw = some r) :
    assignment_complete cw r = true ∧ consistent cw r = true := by
  simp only [solve] at h
  rcases hbt : backtrack cw
      (ac3 cw (enforce_node_consistency cw (initial_domains cw)) none).2
      (cw.vars.length + 1) [] with ⟨ro, a2⟩
  rw [hbt] at h
  have h1 : ro = some r := h
  rcases backtrack_some_sound cw _ _ [] r a2 (by rw [hbt, h1]) with ⟨hr, hcomp⟩ | hok
  · subst hr
    exact ⟨hcomp, rfl⟩
  · exact hok
